import Mathlib

/-!
Verification of the Sudoku engine of `sarthakmehndiratta/sudoku`
(`internal/sudoku/service.go`, current revision, together with the
`handlers` game endpoints).

A `Board` is the Go type `[9][9]int`; cell value `0` means empty.  All
functions below are shallow embeddings of the Go functions of the same
name.  The mutable in-place board of the Go backtracking search is
modelled by explicit state passing: `solveGo`/`countGo` return the final
state of the board next to the result, and the Go statement
`board[i][j] = 0` appears literally as `setCell b1 r c 0`.  The Go
unbounded recursion is modelled with a fuel parameter; fuel `82`
(`maxFuel`) strictly exceeds the number of empty cells of any board, so
the fuel never runs out in the wrappers.
-/

namespace Sudoku

/-- The Go type `Board = [9][9]int`. -/
def Board := Fin 9 → Fin 9 → Nat

instance : DecidableEq Board :=
  inferInstanceAs (DecidableEq (Fin 9 → Fin 9 → Nat))

/-- The all-zero board `var board Board`. -/
def emptyBoard : Board := fun _ _ => 0

/-- Build a board from a row-major list of cell values (test helper). -/
def mkBoard (l : List Nat) : Board := fun i j => l.getD (9 * i.val + j.val) 0

/-- Write value `v` into cell `(r, c)` (the Go assignment `board[r][c] = v`). -/
def setCell (b : Board) (r c : Fin 9) (v : Nat) : Board :=
  fun i j => if i = r ∧ j = c then v else b i j

/-- The Go struct `Move`. -/
structure Move where
  row : Fin 9
  col : Fin 9
  value : Nat
  reason : String
deriving DecidableEq

/-- Row-major list of all cell coordinates, the iteration order of the
Go loops `for i := 0; i < 9; i++ { for j := 0; j < 9; j++ { ... } }`. -/
def rowMajorCells : List (Fin 9 × Fin 9) :=
  (List.finRange 9).flatMap fun i => (List.finRange 9).map fun j => (i, j)

/-- Cell `3*(r/3) + d` of the 3×3 box band of index `r`: the Go loop
`for i := boxRow; i < boxRow+3; i++` visits `boxIdx r 0/1/2`. -/
def boxIdx (r : Fin 9) (d : Fin 3) : Fin 9 :=
  ⟨r.val / 3 * 3 + d.val, by have h1 := r.isLt; have h2 := d.isLt; omega⟩

/-- Go `StringToBoard`: builds the row-major board from the first 81
bytes of the input string; `board[i/9][i%9] = int(s[i] - 48)` with
byte-wraparound subtraction.  The input is the byte sequence of the string.
A string shorter than 81 makes the Go code panic with an index-range
error, modelled as `none`.  No other validation is performed. -/
def stringToBoard (s : List Nat) : Option Board :=
  if s.length < 81 then none
  else some (fun i j => (s.getD (9 * i.val + j.val) 0 + 208) % 256)

/-- Go `BoardToString`: row-major byte sequence, `board[i][j] + 48`. -/
def boardToString (b : Board) : List Nat :=
  (List.finRange 9).flatMap fun i => (List.finRange 9).map fun j => b i j + 48

/-- Go `IsValidMove`: `value` occupies no other cell of the row, the
column, or the 3×3 box of `(row, col)` (self-excluded by position). -/
def isValidMove (b : Board) (r c : Fin 9) (v : Nat) : Bool :=
  ((List.finRange 9).all fun j => !(b r j == v && j != c)) &&
  ((List.finRange 9).all fun i => !(b i c == v && i != r)) &&
  ((List.finRange 3).all fun di => (List.finRange 3).all fun dj =>
    !(b (boxIdx r di) (boxIdx c dj) == v && !(boxIdx r di == r && boxIdx c dj == c)))

/-- Go `GetCandidates`: empty list for a filled cell, otherwise the
ascending values `1..9` accepted by `isValidMove`. -/
def getCandidates (b : Board) (r c : Fin 9) : List Nat :=
  if b r c ≠ 0 then []
  else [1, 2, 3, 4, 5, 6, 7, 8, 9].filter fun v => isValidMove b r c v

/-- The first empty cell in row-major order: the Go pattern
`for i { for j { if board[i][j] == 0 { ... return } } }`. -/
def findEmpty (b : Board) : Option (Fin 9 × Fin 9) :=
  rowMajorCells.find? fun rc => b rc.1 rc.2 == 0

/-- The digit sequence `for value := 1; value <= 9; value++` of Go `solve`. -/
def digitList : List Nat := [1, 2, 3, 4, 5, 6, 7, 8, 9]

/-- The inner `for value` loop of Go `solve`: try the remaining
candidate values `vs` at cell `(r, c)`, recursing into the search
`step` for the next cell; on a failed recursive call the cell is reset
(`board[i][j] = 0`) before the next candidate. -/
def solveTryF (step : Board → Bool × Board) (r c : Fin 9) :
    Board → List Nat → Bool × Board
  | b, [] => (false, b)
  | b, v :: vs =>
    if isValidMove b r c v then
      match step (setCell b r c v) with
      | (true, b1) => (true, b1)
      | (false, b1) => solveTryF step r c (setCell b1 r c 0) vs
    else solveTryF step r c b vs

/-- Go `solve` (and `solveRandom`), generalized over the order in which
candidate digits are tried at each cell: `solve` uses the fixed order
`digitList`; `solveRandom` shuffles the nine digits freshly at each
visited cell, modelled by the oracle `shuf` (indexed by the remaining
fuel and the current board, which uniquely identify a call site of one
run).  Returns the success flag and the final state of the mutated
board. -/
def solveGo (shuf : Nat → Board → List Nat) : Nat → Board → Bool × Board
  | 0, b => (false, b)
  | n + 1, b =>
    match findEmpty b with
    | none => (true, b)
    | some (r, c) => solveTryF (solveGo shuf n) r c b (shuf (n + 1) b)

/-- Fuel that strictly exceeds the number of empty cells of any board. -/
def maxFuel : Nat := 82

/-- Go `solve`: the deterministic backtracking search, digits tried in
ascending order at every cell. -/
def solve (n : Nat) (b : Board) : Bool × Board :=
  solveGo (fun _ _ => digitList) n b

/-- Go `SolvePuzzle`: solve a copy; on failure return the board of the
caller unchanged. -/
def solvePuzzle (b : Board) : Board × Bool :=
  match solve maxFuel b with
  | (true, sb) => (sb, true)
  | (false, _) => (b, false)

/-- The inner `for value` loop of Go `countSolutions`: after each
recursive call the cell is always reset, and a `true` (finished) result
is propagated up unchanged. -/
def countTryF (step : Board → Nat → Bool × Board × Nat) (r c : Fin 9) :
    Board → Nat → List Nat → Bool × Board × Nat
  | b, k, [] => (false, b, k)
  | b, k, v :: vs =>
    if isValidMove b r c v then
      match step (setCell b r c v) k with
      | (fin, b1, k1) =>
        if fin then (true, setCell b1 r c 0, k1)
        else countTryF step r c (setCell b1 r c 0) k1 vs
    else countTryF step r c b k vs

/-- Go `countSolutions` (current revision): same search as `solve`, but
on reaching a full assignment it increments the counter and returns
`count > 1`.  State `(finished, board, count)` is returned
explicitly. -/
def countGo : Nat → Board → Nat → Bool × Board × Nat
  | 0, b, k => (false, b, k)
  | n + 1, b, k =>
    match findEmpty b with
    | none => (decide (k + 1 > 1), b, k + 1)
    | some (r, c) => countTryF (countGo n) r c b k digitList

/-- A call `countSolutions(&board, &count)` with `count := 0`, as every
caller in the repository performs it. -/
def countSolutions (b : Board) : Bool × Board × Nat :=
  countGo maxFuel b 0

/-- Go `FindNakedSingles`: the nested row-major loops appending a
`"Naked Single"` move for every empty cell whose candidate list has
exactly one element. -/
def findNakedSingles (b : Board) : List Move :=
  (List.finRange 9).foldl
    (fun acc i =>
      (List.finRange 9).foldl
        (fun acc2 j =>
          if b i j = 0 then
            let cs := getCandidates b i j
            if cs.length = 1 then acc2 ++ [⟨i, j, cs.headD 0, "Naked Single"⟩] else acc2
          else acc2)
        acc)
    []

/-- The inner counting loop of Go `FindHiddenSingles` for one unit and
one digit: fold over the cells of the unit updating `(count, pos)`; `pos`
starts at the sentinel (`-1` in Go, `none` here) and is set at every
hit.  `getCandidates` never repeats a value, so the Go per-occurrence
increment is one increment per matching cell. -/
def scanUnit (b : Board) (v : Nat) (cells : List (Fin 9 × Fin 9)) :
    Nat × Option (Fin 9 × Fin 9) :=
  cells.foldl
    (fun st rc =>
      if b rc.1 rc.2 = 0 then
        if v ∈ getCandidates b rc.1 rc.2 then (st.1 + 1, some rc) else st
      else st)
    (0, none)

/-- The cells of row `r` in column order. -/
def rowCells (r : Fin 9) : List (Fin 9 × Fin 9) :=
  (List.finRange 9).map fun c => (r, c)

/-- The cells of column `c` in row order. -/
def colCells (c : Fin 9) : List (Fin 9 × Fin 9) :=
  (List.finRange 9).map fun r => (r, c)

/-- The cells of the box with corner `(3*br, 3*bc)`, rows outer. -/
def boxCells (br bc : Fin 3) : List (Fin 9 × Fin 9) :=
  (List.finRange 3).flatMap fun di =>
    (List.finRange 3).map fun dj =>
      ((⟨3 * br.val + di.val, by have h1 := br.isLt; have h2 := di.isLt; omega⟩ : Fin 9),
       (⟨3 * bc.val + dj.val, by have h1 := bc.isLt; have h2 := dj.isLt; omega⟩ : Fin 9))

/-- Go `FindHiddenSingles`: rows, then columns, then boxes; for each
unit and each digit 1–9, emit a move when the scan counted exactly one
empty cell with the digit among its candidates.  A count of 1 implies
the scan recorded a position, so the sentinel never reaches a move. -/
def findHiddenSingles (b : Board) : List Move :=
  ((List.finRange 9).flatMap fun r =>
    digitList.filterMap fun v =>
      match scanUnit b v (rowCells r) with
      | (1, some rc) => some ⟨rc.1, rc.2, v, "Hidden Single in Row"⟩
      | _ => none) ++
  ((List.finRange 9).flatMap fun c =>
    digitList.filterMap fun v =>
      match scanUnit b v (colCells c) with
      | (1, some rc) => some ⟨rc.1, rc.2, v, "Hidden Single in Column"⟩
      | _ => none) ++
  ((List.finRange 3).flatMap fun br =>
    (List.finRange 3).flatMap fun bc =>
      digitList.filterMap fun v =>
        match scanUnit b v (boxCells br bc) with
        | (1, some rc) => some ⟨rc.1, rc.2, v, "Hidden Single in Box"⟩
        | _ => none)

/-- Go `SolveStep`: first naked single, else first hidden single, else
the first empty cell filled from a full backtracking solve. -/
def solveStep (b : Board) : Except String Move :=
  match findNakedSingles b with
  | m :: _ => .ok m
  | [] =>
    match findHiddenSingles b with
    | m :: _ => .ok m
    | [] =>
      match solvePuzzle b with
      | (_, false) => .error ("puzzle cannot be solved")
      | (sb, true) =>
        match findEmpty b with
        | some (r, c) => .ok ⟨r, c, sb r c, "Advanced Step"⟩
        | none => .error ("could not fill any cell")

/-- Go `GetHint` (service): refuse a filled cell; otherwise solve the
board for the true cell value, preferring the `SolveStep` move when it
targets the same cell. -/
def getHint (b : Board) (r c : Fin 9) : Except String Move :=
  if b r c ≠ 0 then .error ("cell is already filled")
  else
    match solvePuzzle b with
    | (_, false) => .error ("puzzle cannot be solved from current state")
    | (sb, true) =>
      match solveStep b with
      | .ok step => if step.row = r ∧ step.col = c then .ok step else .ok ⟨r, c, sb r c, "Hint"⟩
      | .error _ => .ok ⟨r, c, sb r c, "Hint"⟩

/-- Go `CalculateScore` (current revision): 10 points per cell empty in
the initial board, filled in the final board, and agreeing with the
solution board. -/
def calculateScore (ib fb sb : Board) : Nat :=
  (List.finRange 9).foldl
    (fun s i =>
      (List.finRange 9).foldl
        (fun s2 j =>
          if ib i j = 0 ∧ fb i j ≠ 0 then
            if fb i j = sb i j then s2 + 10 else s2
          else s2)
        s)
    0

/-- Modelled from the spec: `models.Difficulty` (its source file is not
in the pack) is the difficulty tier Easy / Medium / Hard. -/
inductive Difficulty
  | easy
  | medium
  | hard
deriving DecidableEq

/-- The `row := pos / 9` computation of Go `GeneratePuzzle`. -/
def posRow (pos : Fin 81) : Fin 9 := ⟨pos.val / 9, by have h := pos.isLt; omega⟩

/-- The `col := pos % 9` computation of Go `GeneratePuzzle`. -/
def posCol (pos : Fin 81) : Fin 9 := ⟨pos.val % 9, by have h := pos.isLt; omega⟩

/-- The `vacantTiles` switch of Go `GeneratePuzzle` (current revision):
35 for Easy, 45 for Medium, 54 for Hard. -/
def vacantTiles : Difficulty → Nat
  | .easy => 35
  | .medium => 45
  | .hard => 54

/-- The cell-removal loop of Go `GeneratePuzzle`: visit the given
positions while vacant tiles remain; clear a cell, keep the clearing
only if `countSolutions` on a scratch copy reports exactly one
solution, restoring the saved value otherwise. -/
def removeLoop : List (Fin 81) → Board → Nat → Board
  | [], puzzle, _ => puzzle
  | pos :: rest, puzzle, vacant =>
    if vacant = 0 then puzzle
    else
      if (countSolutions (setCell puzzle (posRow pos) (posCol pos) 0)).2.2 ≠ 1 then
        removeLoop rest puzzle vacant
      else removeLoop rest (setCell puzzle (posRow pos) (posCol pos) 0) (vacant - 1)

/-- Go `GeneratePuzzle` (current revision): difficulty fixes the vacant
tile target (35 / 45 / 54); `solveRandom` builds a full grid from the
empty board (the per-cell digit shuffles are the oracle `shuf`, the
`rand.Perm(81)` cell order is the list `positions`); then cells are
removed under the uniqueness check. -/
def generatePuzzle (shuf : Nat → Board → List Nat) (df : Difficulty)
    (positions : List (Fin 81)) : Option (Board × Board) :=
  match solveGo shuf maxFuel emptyBoard with
  | (false, _) => none
  | (true, solved) => some (removeLoop positions solved (vacantTiles df), solved)

/-! ## Semantic notions

`Completion b b2` says that `b2` is one of the full assignments the
backtracking search can reach from `b`: it agrees with `b` on the
filled cells, and every cell that is empty in `b` holds a digit 1–9
that `isValidMove` accepts in the final board (placement order is
irrelevant: a conflict between two placed cells would invalidate
whichever of them was placed last). -/

/-- Board `b2` is a full legal completion of `b`. -/
def Completion (b b2 : Board) : Prop :=
  (∀ r c, b r c ≠ 0 → b2 r c = b r c) ∧
  (∀ r c, b r c = 0 → (1 ≤ b2 r c ∧ b2 r c ≤ 9) ∧ isValidMove b2 r c (b2 r c) = true)

/-- The set of full legal completions of a board. -/
def completions (b : Board) : Set Board := {b2 | Completion b b2}

/-- Number of empty cells of a board. -/
def emptyCount (b : Board) : Nat :=
  (Finset.univ.filter fun p : Fin 9 × Fin 9 => b p.1 p.2 = 0).card

/-- Number of filled cells of a board. -/
def filledCount (b : Board) : Nat :=
  (Finset.univ.filter fun p : Fin 9 × Fin 9 => b p.1 p.2 ≠ 0).card

/-- The completions of `b` whose value at `(r, c)` lies in `vs`: what
the remainder of the inner candidate loop still has to count. -/
def TrySet (b : Board) (r c : Fin 9) (vs : List Nat) : Set Board :=
  {b2 | Completion b b2 ∧ b2 r c ∈ vs}

/-- Cell `(x, y)` shares a row, column, or box with `(r, c)`. -/
def SameUnit (r c x y : Fin 9) : Prop :=
  x = r ∨ y = c ∨ (x.val / 3 = r.val / 3 ∧ y.val / 3 = c.val / 3)

/-- The naked-single moves as the spec words them: one move per empty
cell whose candidate set is a singleton, in row-major cell order. -/
def nakedSinglesSpec (b : Board) : List Move :=
  rowMajorCells.filterMap fun rc =>
    if b rc.1 rc.2 = 0 then
      match getCandidates b rc.1 rc.2 with
      | [v] => some ⟨rc.1, rc.2, v, "Naked Single"⟩
      | _ => none
    else none

/-- The hidden-single moves as the spec words them: for every unit
(rows, then columns, then boxes) and every digit 1–9, a move exactly
when the empty cells of the unit holding the digit as candidate form a
singleton. -/
def hiddenSinglesSpec (b : Board) : List Move :=
  ((List.finRange 9).flatMap fun r =>
    digitList.filterMap fun v =>
      match (rowCells r).filter
          (fun rc => decide (b rc.1 rc.2 = 0 ∧ v ∈ getCandidates b rc.1 rc.2)) with
      | [rc] => some ⟨rc.1, rc.2, v, "Hidden Single in Row"⟩
      | _ => none) ++
  ((List.finRange 9).flatMap fun c =>
    digitList.filterMap fun v =>
      match (colCells c).filter
          (fun rc => decide (b rc.1 rc.2 = 0 ∧ v ∈ getCandidates b rc.1 rc.2)) with
      | [rc] => some ⟨rc.1, rc.2, v, "Hidden Single in Column"⟩
      | _ => none) ++
  ((List.finRange 3).flatMap fun br =>
    (List.finRange 3).flatMap fun bc =>
      digitList.filterMap fun v =>
        match (boxCells br bc).filter
            (fun rc => decide (b rc.1 rc.2 = 0 ∧ v ∈ getCandidates b rc.1 rc.2)) with
        | [rc] => some ⟨rc.1, rc.2, v, "Hidden Single in Box"⟩
        | _ => none)

/-! ### Concrete boards and oracles used by the witnesses -/

/-- The solved grid of the scenario in the spec:
`534678912672195348198342567859761423426853791713924856961537284287419635345286179`. -/
def solvedB : Board := mkBoard
  [5, 3, 4, 6, 7, 8, 9, 1, 2,
   6, 7, 2, 1, 9, 5, 3, 4, 8,
   1, 9, 8, 3, 4, 2, 5, 6, 7,
   8, 5, 9, 7, 6, 1, 4, 2, 3,
   4, 2, 6, 8, 5, 3, 7, 9, 1,
   7, 1, 3, 9, 2, 4, 8, 5, 6,
   9, 6, 1, 5, 3, 7, 2, 8, 4,
   2, 8, 7, 4, 1, 9, 6, 3, 5,
   3, 4, 5, 2, 8, 6, 1, 7, 9]

/-- The board `solvedB` with its first cell blanked. -/
def holeB : Board := setCell solvedB 0 0 0

/-- A digit-order oracle that leads the randomized solver straight to
`solvedB` without backtracking: at each call it offers only the value
`solvedB` holds at the first empty cell. -/
def shufW : Nat → Board → List Nat := fun _ b =>
  match findEmpty b with
  | some rc => [solvedB rc.1 rc.2]
  | none => []

/-- A board whose first empty cell `(0,0)` has no candidate: digits 1–8
sit in row 0 and digit 9 in column 0. -/
def deadB : Board := mkBoard
  [0, 1, 2, 3, 4, 5, 6, 7, 8,
   9, 0, 0, 0, 0, 0, 0, 0, 0,
   0, 0, 0, 0, 0, 0, 0, 0, 0,
   0, 0, 0, 0, 0, 0, 0, 0, 0,
   0, 0, 0, 0, 0, 0, 0, 0, 0,
   0, 0, 0, 0, 0, 0, 0, 0, 0,
   0, 0, 0, 0, 0, 0, 0, 0, 0,
   0, 0, 0, 0, 0, 0, 0, 0, 0,
   0, 0, 0, 0, 0, 0, 0, 0, 0]

/-- The byte sequence of the scenario puzzle string
`"530070000600195000098000060800060003400803001700020006060000280000419005000080079"`. -/
def digitBytes : List Nat :=
  [53, 51, 48, 48, 55, 48, 48, 48, 48,
   54, 48, 48, 49, 57, 53, 48, 48, 48,
   48, 57, 56, 48, 48, 48, 48, 54, 48,
   56, 48, 48, 48, 54, 48, 48, 48, 51,
   52, 48, 48, 56, 48, 51, 48, 48, 49,
   55, 48, 48, 48, 50, 48, 48, 48, 54,
   48, 54, 48, 48, 48, 48, 50, 56, 48,
   48, 48, 48, 52, 49, 57, 48, 48, 53,
   48, 48, 48, 48, 56, 48, 48, 55, 57]

/-- A list of 80 digit-zero bytes (48) followed by one letter byte
(65): length 81, not all ASCII digits. -/
def badBytes : List Nat := List.replicate 80 48 ++ [65]

/-! ## Basic lemmas -/

theorem setCell_self (b : Board) (r c : Fin 9) (v : Nat) : setCell b r c v r c = v := by
  simp [setCell]

theorem setCell_of_ne {i j r c : Fin 9} (h : ¬(i = r ∧ j = c)) (b : Board) (v : Nat) :
    setCell b r c v i j = b i j := by
  simp [setCell, h]

theorem setCell_setCell (b : Board) (r c : Fin 9) (v w : Nat) :
    setCell (setCell b r c v) r c w = setCell b r c w := by
  funext i j
  by_cases h : i = r ∧ j = c <;> simp [setCell, h]

theorem setCell_zero_eq {b : Board} {r c : Fin 9} (hz : b r c = 0) : setCell b r c 0 = b := by
  funext i j
  by_cases h : i = r ∧ j = c
  · obtain ⟨rfl, rfl⟩ := h
    simp [setCell, hz]
  · simp [setCell, h]

theorem mem_rowMajorCells (p : Fin 9 × Fin 9) : p ∈ rowMajorCells := by
  simp only [rowMajorCells, List.mem_flatMap, List.mem_map]
  exact ⟨p.1, List.mem_finRange _, p.2, List.mem_finRange _, rfl⟩

theorem findEmpty_none {b : Board} (h : findEmpty b = none) : ∀ r c, b r c ≠ 0 := by
  intro r c hc
  have hmem := List.find?_eq_none.mp h (r, c) (mem_rowMajorCells _)
  simp [hc] at hmem

theorem findEmpty_some {b : Board} {r c : Fin 9} (h : findEmpty b = some (r, c)) :
    b r c = 0 := by
  have := List.find?_some h
  simpa using this

theorem emptyCount_le (b : Board) : emptyCount b ≤ 81 := by
  have h := Finset.card_filter_le (Finset.univ : Finset (Fin 9 × Fin 9))
    (fun p => b p.1 p.2 = 0)
  simpa using h

theorem emptyCount_setCell {b : Board} {r c : Fin 9} (hz : b r c = 0) {v : Nat} (hv : v ≠ 0) :
    emptyCount (setCell b r c v) + 1 = emptyCount b := by
  have hset : (Finset.univ.filter fun p : Fin 9 × Fin 9 => setCell b r c v p.1 p.2 = 0)
      = (Finset.univ.filter fun p : Fin 9 × Fin 9 => b p.1 p.2 = 0).erase (r, c) := by
    ext ⟨i, j⟩
    by_cases h : i = r ∧ j = c
    · obtain ⟨rfl, rfl⟩ := h
      simp [setCell, hv]
    · have hne : ¬((i, j) = (r, c)) := by
        simpa [Prod.ext_iff] using h
      simp [setCell, h, hne]
  have hmem : (r, c) ∈ (Finset.univ.filter fun p : Fin 9 × Fin 9 => b p.1 p.2 = 0) := by
    simp [hz]
  have hpos : 0 < (Finset.univ.filter fun p : Fin 9 × Fin 9 => b p.1 p.2 = 0).card :=
    Finset.card_pos.mpr ⟨(r, c), hmem⟩
  unfold emptyCount
  rw [hset, Finset.card_erase_of_mem hmem]
  omega

theorem emptyCount_setCell_zero_le (b : Board) (r c : Fin 9) :
    emptyCount (setCell b r c 0) ≤ emptyCount b + 1 := by
  have hsub : (Finset.univ.filter fun p : Fin 9 × Fin 9 => setCell b r c 0 p.1 p.2 = 0)
      ⊆ insert (r, c) (Finset.univ.filter fun p : Fin 9 × Fin 9 => b p.1 p.2 = 0) := by
    intro ⟨i, j⟩ hmem
    by_cases h : i = r ∧ j = c
    · obtain ⟨rfl, rfl⟩ := h
      simp
    · simp only [Finset.mem_filter, Finset.mem_univ, true_and, setCell, h, if_false] at hmem
      simp [hmem]
  calc emptyCount (setCell b r c 0)
      ≤ (insert (r, c) (Finset.univ.filter fun p : Fin 9 × Fin 9 => b p.1 p.2 = 0)).card :=
        Finset.card_le_card hsub
    _ ≤ emptyCount b + 1 := Finset.card_insert_le _ _

/-! ## Characterization of `isValidMove` -/

theorem boxIdx_val (r : Fin 9) (d : Fin 3) : (boxIdx r d).val = r.val / 3 * 3 + d.val := rfl

theorem SameUnit.symm {r c x y : Fin 9} (h : SameUnit r c x y) : SameUnit x y r c := by
  rcases h with h | h | ⟨h1, h2⟩
  · exact Or.inl h.symm
  · exact Or.inr (Or.inl h.symm)
  · exact Or.inr (Or.inr ⟨h1.symm, h2.symm⟩)

theorem isValidMove_eq_true_iff {b : Board} {r c : Fin 9} {v : Nat} :
    isValidMove b r c v = true ↔
      ∀ x y : Fin 9, SameUnit r c x y → ¬(x = r ∧ y = c) → b x y ≠ v := by
  constructor
  · intro h x y hsu hne hv
    rw [isValidMove] at h
    simp only [Bool.and_eq_true, List.all_eq_true] at h
    obtain ⟨⟨hrow, hcol⟩, hbox⟩ := h
    rcases hsu with hx | hy | ⟨hbx, hby⟩
    · subst hx
      have hy := hrow y (List.mem_finRange y)
      simp [hv] at hy
      exact hne ⟨rfl, hy⟩
    · subst hy
      have hx := hcol x (List.mem_finRange x)
      simp [hv] at hx
      exact hne ⟨hx, rfl⟩
    · have hdx : x.val % 3 < 3 := Nat.mod_lt _ (by norm_num)
      have hdy : y.val % 3 < 3 := Nat.mod_lt _ (by norm_num)
      have hx : boxIdx r ⟨x.val % 3, hdx⟩ = x := by
        apply Fin.ext
        show r.val / 3 * 3 + x.val % 3 = x.val
        omega
      have hy : boxIdx c ⟨y.val % 3, hdy⟩ = y := by
        apply Fin.ext
        show c.val / 3 * 3 + y.val % 3 = y.val
        omega
      have h3 := hbox ⟨x.val % 3, hdx⟩ (List.mem_finRange _) ⟨y.val % 3, hdy⟩
        (List.mem_finRange _)
      rw [hx, hy] at h3
      simp [hv] at h3
      exact hne h3
  · intro h
    rw [isValidMove]
    simp only [Bool.and_eq_true, List.all_eq_true]
    refine ⟨⟨?_, ?_⟩, ?_⟩
    · intro j _
      by_cases hjc : j = c
      · subst hjc
        simp
      · have hnv : b r j ≠ v := h r j (Or.inl rfl) (fun hh => hjc hh.2)
        have hb : (b r j == v) = false := by simpa using hnv
        simp [hb]
    · intro i _
      by_cases hir : i = r
      · subst hir
        simp
      · have hnv : b i c ≠ v := h i c (Or.inr (Or.inl rfl)) (fun hh => hir hh.1)
        have hb : (b i c == v) = false := by simpa using hnv
        simp [hb]
    · intro di _ dj _
      by_cases hself : boxIdx r di = r ∧ boxIdx c dj = c
      · simp [hself.1, hself.2]
      · have hsu : SameUnit r c (boxIdx r di) (boxIdx c dj) := by
          refine Or.inr (Or.inr ⟨?_, ?_⟩)
          · rw [boxIdx_val]
            have := di.isLt
            omega
          · rw [boxIdx_val]
            have := dj.isLt
            omega
        have hnv : b (boxIdx r di) (boxIdx c dj) ≠ v := h _ _ hsu hself
        have hb : (b (boxIdx r di) (boxIdx c dj) == v) = false := by simpa using hnv
        simp [hb]

theorem isValidMove_mono {b b2 : Board} {r c : Fin 9} {v : Nat}
    (hext : ∀ i j, b i j ≠ 0 → b2 i j = b i j) (hv : v ≠ 0)
    (h : isValidMove b2 r c v = true) : isValidMove b r c v = true := by
  rw [isValidMove_eq_true_iff] at h ⊢
  intro x y hsu hne hbv
  have hnz : b x y ≠ 0 := by
    rw [hbv]
    exact hv
  exact h x y hsu hne (by rw [hext x y hnz, hbv])

/-! ## Generic fold lemmas -/

theorem foldl_if_add10 {β : Type} (p : β → Bool) :
    ∀ (l : List β) (a : Nat),
      l.foldl (fun s x => if p x then s + 10 else s) a = a + 10 * (l.filter p).length := by
  intro l
  induction l with
  | nil => simp
  | cons x t ih =>
    intro a
    by_cases h : p x
    · simp only [List.foldl_cons, h, if_true, List.filter_cons_of_pos h, List.length_cons, ih]
      ring
    · simp only [List.foldl_cons, h, if_false, List.filter_cons_of_neg h, ih,
        Bool.false_eq_true]

theorem foldl_add_map {β : Type} (g : β → Nat) :
    ∀ (l : List β) (a : Nat), l.foldl (fun s x => s + g x) a = a + (l.map g).sum := by
  intro l
  induction l with
  | nil => simp
  | cons x t ih =>
    intro a
    simp only [List.foldl_cons, List.map_cons, List.sum_cons, ih]
    ring

theorem sum_boole_eq_length_filter {β : Type} (p : β → Bool) :
    ∀ l : List β, (l.map fun x => if p x then 1 else 0).sum = (l.filter p).length := by
  intro l
  induction l with
  | nil => simp
  | cons x t ih =>
    by_cases h : p x
    · simp [h, List.filter_cons_of_pos, ih]
      omega
    · simp [h, List.filter_cons_of_neg, ih]

theorem foldl_append_flatMap {α β : Type} (g : α → List β) :
    ∀ (l : List α) (acc : List β),
      l.foldl (fun a x => a ++ g x) acc = acc ++ l.flatMap g := by
  intro l
  induction l with
  | nil => simp
  | cons x t ih =>
    intro acc
    simp [ih, List.flatMap_cons, List.append_assoc]

theorem flatMap_toList_eq_filterMap {α β : Type} (g : α → Option β) :
    ∀ l : List α, (l.flatMap fun x => (g x).toList) = l.filterMap g := by
  intro l
  induction l with
  | nil => simp
  | cons x t ih =>
    cases h : g x <;> simp [List.flatMap_cons, List.filterMap_cons, h, ih]

/-! ## C3: scoring -/

/-- C3.  `CalculateScore` returns exactly 10 times the number of cells
that are empty in the initial grid, non-empty in the final grid, and
equal to the corresponding solution cell; no other cell contributes and
wrong entries incur no penalty. -/
theorem spec_calculateScore (ib fb sb : Board) :
    calculateScore ib fb sb =
      10 * (Finset.univ.filter fun p : Fin 9 × Fin 9 =>
        ib p.1 p.2 = 0 ∧ fb p.1 p.2 ≠ 0 ∧ fb p.1 p.2 = sb p.1 p.2).card := by
  have hinner : ∀ (i : Fin 9) (s : Nat),
      (List.finRange 9).foldl
        (fun s2 j =>
          if ib i j = 0 ∧ fb i j ≠ 0 then
            if fb i j = sb i j then s2 + 10 else s2
          else s2) s
      = s + 10 * ((List.finRange 9).filter
          (fun j => decide (ib i j = 0 ∧ fb i j ≠ 0 ∧ fb i j = sb i j))).length := by
    intro i s
    have hfun : (fun (s2 : Nat) (j : Fin 9) =>
        if ib i j = 0 ∧ fb i j ≠ 0 then
          if fb i j = sb i j then s2 + 10 else s2
        else s2)
        = fun (s2 : Nat) (j : Fin 9) =>
            if (decide (ib i j = 0 ∧ fb i j ≠ 0 ∧ fb i j = sb i j) : Bool)
            then s2 + 10 else s2 := by
      funext s2 j
      by_cases h1 : ib i j = 0 ∧ fb i j ≠ 0
      · by_cases h2 : fb i j = sb i j <;> simp [h1, h2]
      · simp only [h1, if_false]
        have : ¬(ib i j = 0 ∧ fb i j ≠ 0 ∧ fb i j = sb i j) := by tauto
        simp [this]
    rw [hfun, foldl_if_add10]
  have houter : (fun (s : Nat) (i : Fin 9) =>
      (List.finRange 9).foldl
        (fun s2 j =>
          if ib i j = 0 ∧ fb i j ≠ 0 then
            if fb i j = sb i j then s2 + 10 else s2
          else s2) s)
      = fun (s : Nat) (i : Fin 9) =>
          s + (10 * ((List.finRange 9).filter
            (fun j => decide (ib i j = 0 ∧ fb i j ≠ 0 ∧ fb i j = sb i j))).length) := by
    funext s i
    exact hinner i s
  have hrow : ∀ i : Fin 9,
      (∑ j : Fin 9, if ib i j = 0 ∧ fb i j ≠ 0 ∧ fb i j = sb i j then 1 else 0)
      = ((List.finRange 9).filter
          (fun j => decide (ib i j = 0 ∧ fb i j ≠ 0 ∧ fb i j = sb i j))).length := by
    intro i
    rw [Fin.sum_univ_def, ← sum_boole_eq_length_filter]
    refine congrArg List.sum (List.map_congr_left ?_)
    intro j _
    by_cases h : ib i j = 0 ∧ fb i j ≠ 0 ∧ fb i j = sb i j <;> simp [h]
  have h1 : ((List.finRange 9).map fun i =>
        10 * ((List.finRange 9).filter
          (fun j => decide (ib i j = 0 ∧ fb i j ≠ 0 ∧ fb i j = sb i j))).length).sum
      = 10 * ((List.finRange 9).map fun i =>
          ((List.finRange 9).filter
            (fun j => decide (ib i j = 0 ∧ fb i j ≠ 0 ∧ fb i j = sb i j))).length).sum :=
    List.sum_map_mul_left _ _ _
  have h2 : (Finset.univ.filter fun p : Fin 9 × Fin 9 =>
        ib p.1 p.2 = 0 ∧ fb p.1 p.2 ≠ 0 ∧ fb p.1 p.2 = sb p.1 p.2).card
      = ((List.finRange 9).map fun i =>
          ((List.finRange 9).filter
            (fun j => decide (ib i j = 0 ∧ fb i j ≠ 0 ∧ fb i j = sb i j))).length).sum := by
    rw [Finset.card_filter, Fintype.sum_prod_type, Fin.sum_univ_def]
    refine congrArg List.sum (List.map_congr_left ?_)
    intro i _
    exact hrow i
  rw [calculateScore, houter, foldl_add_map, Nat.zero_add, h1, h2]

/-! ## C4 and C8: parsing and serialization -/

set_option maxHeartbeats 2000000 in
/-- Applying `boardToString` to a row-major formula board gives the
row-major list. -/
theorem boardToString_ofFn (g : Nat → Nat) :
    boardToString (fun i j => g (9 * i.val + j.val))
      = List.ofFn (fun m : Fin 81 => g m.val + 48) := by
  rfl

/-- C4 counterexample.  An 81-byte input containing a non-digit byte
(byte 65) on which `StringToBoard` nevertheless succeeds: the claimed
`MalformedInput` failure does not exist in the code. -/
theorem stringToBoard_accepts_nondigit :
    badBytes.length = 81 ∧ (∃ ch ∈ badBytes, ¬(48 ≤ ch ∧ ch ≤ 57)) ∧
      (stringToBoard badBytes).isSome = true := by
  refine ⟨by decide, ⟨65, by decide, by decide⟩, by decide⟩

/-- C4 (amended).  `StringToBoard` validates nothing: every byte string
of length at least 81 parses successfully into the row-major board
whose cells are the byte-wraparound differences `s[i] - 48`, whatever
the bytes are; only strings shorter than 81 fail, and they fail by an
index-out-of-range panic rather than a `MalformedInput` error. -/
theorem spec_stringToBoard_total (s : List Nat) (h : 81 ≤ s.length) :
    (∃ b, stringToBoard s = some b ∧
        ∀ i j : Fin 9, b i j = (s.getD (9 * i.val + j.val) 0 + 208) % 256) ∧
    ∀ t : List Nat, t.length < 81 → stringToBoard t = none := by
  constructor
  · refine ⟨_, ?_, fun i j => rfl⟩
    rw [stringToBoard, if_neg (by omega)]
  · intro t ht
    rw [stringToBoard, if_pos ht]

/-- Witness for the amended C4 theorem at the scenario byte string. -/
theorem spec_stringToBoard_total_witness :
    81 ≤ digitBytes.length ∧
      (∃ b, stringToBoard digitBytes = some b ∧
          ∀ i j : Fin 9, b i j = (digitBytes.getD (9 * i.val + j.val) 0 + 208) % 256) ∧
      ∀ t : List Nat, t.length < 81 → stringToBoard t = none :=
  ⟨by decide, spec_stringToBoard_total digitBytes (by decide)⟩

/-- C8.  For every 81-byte ASCII-digit string, serializing the parsed
board returns the string unchanged. -/
theorem spec_roundtrip (s : List Nat) (hlen : s.length = 81)
    (hdig : ∀ ch ∈ s, 48 ≤ ch ∧ ch ≤ 57) :
    ∃ b, stringToBoard s = some b ∧ boardToString b = s := by
  refine ⟨_, by rw [stringToBoard, if_neg (by omega)], ?_⟩
  rw [boardToString_ofFn (fun m => (s.getD m 0 + 208) % 256)]
  have h81 : ∀ m : Fin 81, (m : Nat) < s.length := by
    intro m
    rw [hlen]
    exact m.isLt
  have hcell : ∀ m : Fin 81,
      ((s.getD (m : Nat) 0 + 208) % 256) + 48 = s.get ⟨(m : Nat), h81 m⟩ := by
    intro m
    rw [List.getD_eq_getElem _ _ (h81 m)]
    show (s[(m : Nat)] + 208) % 256 + 48 = s[(m : Nat)]
    have hd := hdig (s[(m : Nat)]) (List.getElem_mem _)
    omega
  calc List.ofFn (fun m : Fin 81 => ((s.getD (m : Nat) 0 + 208) % 256) + 48)
      = List.ofFn (fun m : Fin 81 => s.get ⟨(m : Nat), h81 m⟩) := by
        congr 1
        funext m
        exact hcell m
    _ = s := by
        apply List.ext_getElem
        · simp [hlen]
        · intro i h1 h2
          rw [List.getElem_ofFn]
          simp [List.get_eq_getElem]

/-- Witness for C8 at the scenario puzzle string. -/
theorem spec_roundtrip_witness :
    digitBytes.length = 81 ∧ (∀ ch ∈ digitBytes, 48 ≤ ch ∧ ch ≤ 57) ∧
      ∃ b, stringToBoard digitBytes = some b ∧ boardToString b = digitBytes :=
  ⟨by decide, by decide, spec_roundtrip digitBytes (by decide) (by decide)⟩

/-! ## C6: naked singles -/

theorem filterMap_flatMap {α β γ : Type} (g : α → List β) (f : β → Option γ) :
    ∀ l : List α, (l.flatMap g).filterMap f = l.flatMap fun a => (g a).filterMap f := by
  intro l
  induction l with
  | nil => simp
  | cons x t ih => simp [List.flatMap_cons, List.filterMap_append, ih]

/-- C6.  `FindNakedSingles` returns exactly one `"Naked Single"` move
for each empty cell whose candidate set is a singleton, carrying that
cell and the unique candidate, no move for any other cell, in
row-major cell order; a move list entry exists for a cell precisely
when the cell is empty with a singleton candidate set. -/
theorem spec_findNakedSingles (b : Board) :
    findNakedSingles b = nakedSinglesSpec b ∧
    ∀ m : Move, m ∈ findNakedSingles b ↔
      b m.row m.col = 0 ∧ getCandidates b m.row m.col = [m.value] ∧
        m.reason = "Naked Single" := by
  have hgstep : ∀ i : Fin 9,
      (fun (acc2 : List Move) (j : Fin 9) =>
        if b i j = 0 then
          let cs := getCandidates b i j
          if cs.length = 1 then acc2 ++ [⟨i, j, cs.headD 0, "Naked Single"⟩] else acc2
        else acc2)
      = fun acc2 j => acc2 ++
          ((if b i j = 0 then
              match getCandidates b i j with
              | [v] => some (⟨i, j, v, "Naked Single"⟩ : Move)
              | _ => none
            else none) : Option Move).toList := by
    intro i
    funext acc2 j
    by_cases hz : b i j = 0
    · simp only [hz, if_true]
      cases hcs : getCandidates b i j with
      | nil => simp [hcs]
      | cons v t =>
        cases t with
        | nil => simp [hcs]
        | cons w u => simp [hcs]
    · simp [hz]
  have hA : findNakedSingles b
      = (List.finRange 9).flatMap fun i => (List.finRange 9).flatMap fun j =>
          ((if b i j = 0 then
              match getCandidates b i j with
              | [v] => some (⟨i, j, v, "Naked Single"⟩ : Move)
              | _ => none
            else none) : Option Move).toList := by
    rw [findNakedSingles]
    have houter : (fun (acc : List Move) (i : Fin 9) =>
        (List.finRange 9).foldl
          (fun acc2 j =>
            if b i j = 0 then
              let cs := getCandidates b i j
              if cs.length = 1 then acc2 ++ [⟨i, j, cs.headD 0, "Naked Single"⟩] else acc2
            else acc2)
          acc)
        = fun acc i => acc ++ (List.finRange 9).flatMap fun j =>
            ((if b i j = 0 then
                match getCandidates b i j with
                | [v] => some (⟨i, j, v, "Naked Single"⟩ : Move)
                | _ => none
              else none) : Option Move).toList := by
      funext acc i
      rw [hgstep i, foldl_append_flatMap]
    rw [houter, foldl_append_flatMap, List.nil_append]
  have hB : nakedSinglesSpec b
      = (List.finRange 9).flatMap fun i => (List.finRange 9).flatMap fun j =>
          ((if b i j = 0 then
              match getCandidates b i j with
              | [v] => some (⟨i, j, v, "Naked Single"⟩ : Move)
              | _ => none
            else none) : Option Move).toList := by
    rw [nakedSinglesSpec, rowMajorCells, filterMap_flatMap]
    refine List.flatMap_congr ?_
    intro i _
    rw [List.filterMap_map]
    rw [← flatMap_toList_eq_filterMap]
    rfl
  refine ⟨hA.trans hB.symm, ?_⟩
  intro m
  rw [hA.trans hB.symm, nakedSinglesSpec, List.mem_filterMap]
  constructor
  · rintro ⟨rc, _, hf⟩
    by_cases hz : b rc.1 rc.2 = 0
    · rw [if_pos hz] at hf
      cases hcs : getCandidates b rc.1 rc.2 with
      | nil => rw [hcs] at hf; simp at hf
      | cons v t =>
        cases t with
        | nil =>
          rw [hcs] at hf
          have hm : (⟨rc.1, rc.2, v, "Naked Single"⟩ : Move) = m := by
            simpa using hf
          subst hm
          exact ⟨hz, hcs, rfl⟩
        | cons w u => rw [hcs] at hf; simp at hf
    · rw [if_neg hz] at hf
      simp at hf
  · intro hcond
    obtain ⟨mr, mc, mv, ms⟩ := m
    obtain ⟨hz, hcs, hr⟩ := hcond
    simp only at hz hcs hr
    subst hr
    refine ⟨(mr, mc), mem_rowMajorCells _, ?_⟩
    rw [if_pos hz, hcs]

/-! ## C7: hidden singles -/

theorem scanFold_spec (b : Board) (v : Nat) :
    ∀ (cells : List (Fin 9 × Fin 9)) (st : Nat × Option (Fin 9 × Fin 9)),
      (cells.foldl
        (fun st rc =>
          if b rc.1 rc.2 = 0 then
            if v ∈ getCandidates b rc.1 rc.2 then (st.1 + 1, some rc) else st
          else st) st).1
        = st.1 + (cells.filter
            (fun rc => decide (b rc.1 rc.2 = 0 ∧ v ∈ getCandidates b rc.1 rc.2))).length ∧
      ((cells.filter
          (fun rc => decide (b rc.1 rc.2 = 0 ∧ v ∈ getCandidates b rc.1 rc.2))) = [] →
        (cells.foldl
          (fun st rc =>
            if b rc.1 rc.2 = 0 then
              if v ∈ getCandidates b rc.1 rc.2 then (st.1 + 1, some rc) else st
            else st) st).2 = st.2) ∧
      (∀ rc0, (cells.filter
          (fun rc => decide (b rc.1 rc.2 = 0 ∧ v ∈ getCandidates b rc.1 rc.2))) = [rc0] →
        (cells.foldl
          (fun st rc =>
            if b rc.1 rc.2 = 0 then
              if v ∈ getCandidates b rc.1 rc.2 then (st.1 + 1, some rc) else st
            else st) st).2 = some rc0) := by
  intro cells
  induction cells with
  | nil => simp
  | cons x t ih =>
    intro st
    by_cases hx : b x.1 x.2 = 0 ∧ v ∈ getCandidates b x.1 x.2
    · have hstep : (if b x.1 x.2 = 0 then
            if v ∈ getCandidates b x.1 x.2 then (st.1 + 1, some x) else st
          else st) = (st.1 + 1, some x) := by
        simp [hx.1, hx.2]
      have hfil : (x :: t).filter
          (fun rc => decide (b rc.1 rc.2 = 0 ∧ v ∈ getCandidates b rc.1 rc.2))
          = x :: t.filter
              (fun rc => decide (b rc.1 rc.2 = 0 ∧ v ∈ getCandidates b rc.1 rc.2)) :=
        List.filter_cons_of_pos (by simpa using hx)
      obtain ⟨ih1, ih2, ih3⟩ := ih (st.1 + 1, some x)
      simp only [List.foldl_cons]
      rw [hstep, hfil]
      refine ⟨?_, ?_, ?_⟩
      · rw [ih1]
        simp
        omega
      · intro h
        exact absurd h (List.cons_ne_nil _ _)
      · intro rc0 h
        rw [List.cons_eq_cons] at h
        obtain ⟨rfl, hft⟩ := h
        exact ih2 hft
    · have hstep : (if b x.1 x.2 = 0 then
            if v ∈ getCandidates b x.1 x.2 then (st.1 + 1, some x) else st
          else st) = st := by
        by_cases hz : b x.1 x.2 = 0
        · have hv : ¬ v ∈ getCandidates b x.1 x.2 := fun hv => hx ⟨hz, hv⟩
          simp [hz, hv]
        · simp [hz]
      have hfil : (x :: t).filter
          (fun rc => decide (b rc.1 rc.2 = 0 ∧ v ∈ getCandidates b rc.1 rc.2))
          = t.filter
              (fun rc => decide (b rc.1 rc.2 = 0 ∧ v ∈ getCandidates b rc.1 rc.2)) :=
        List.filter_cons_of_neg (by simpa using hx)
      simp only [List.foldl_cons]
      rw [hstep, hfil]
      exact ih st

theorem scanUnit_match_eq (b : Board) (v : Nat) (cells : List (Fin 9 × Fin 9))
    (mk : Fin 9 × Fin 9 → Move) :
    (match scanUnit b v cells with
     | (1, some rc) => some (mk rc)
     | _ => none)
    = match cells.filter
          (fun rc => decide (b rc.1 rc.2 = 0 ∧ v ∈ getCandidates b rc.1 rc.2)) with
      | [rc] => some (mk rc)
      | _ => none := by
  obtain ⟨h1, h2, h3⟩ := scanFold_spec b v cells (0, none)
  cases hfil : cells.filter
      (fun rc => decide (b rc.1 rc.2 = 0 ∧ v ∈ getCandidates b rc.1 rc.2)) with
  | nil =>
    rw [hfil] at h1 h2
    have hsc : scanUnit b v cells = (0, none) := by
      have hp : (scanUnit b v cells).2 = none := h2 rfl
      have hc : (scanUnit b v cells).1 = 0 := by
        rw [scanUnit, h1]
        rfl
      rw [Prod.ext_iff]
      exact ⟨hc, hp⟩
    rw [hsc]
  | cons rc0 t =>
    cases t with
    | nil =>
      rw [hfil] at h1 h3
      have hsc : scanUnit b v cells = (1, some rc0) := by
        have hp : (scanUnit b v cells).2 = some rc0 := h3 rc0 rfl
        have hc : (scanUnit b v cells).1 = 1 := by
          rw [scanUnit, h1]
          rfl
        rw [Prod.ext_iff]
        exact ⟨hc, hp⟩
      rw [hsc]
    | cons rc1 u =>
      rw [hfil] at h1
      have hc : (scanUnit b v cells).1 = u.length + 2 := by
        rw [scanUnit, h1]
        show 0 + (rc0 :: rc1 :: u).length = u.length + 2
        simp [List.length_cons]
      rcases hsc : scanUnit b v cells with ⟨cnt, pos⟩
      rw [hsc] at hc
      simp only at hc
      subst hc
      rfl

/-- C7.  `FindHiddenSingles` emits a move exactly for those unit–digit
pairs (rows, columns, boxes in order, digits 1–9) for which exactly one
empty cell of the unit has the digit among its candidates, carrying
that cell, the digit, and the unit-kind reason string. -/
theorem spec_findHiddenSingles (b : Board) :
    findHiddenSingles b = hiddenSinglesSpec b := by
  rw [findHiddenSingles, hiddenSinglesSpec]
  have hrows : ((List.finRange 9).flatMap fun r =>
      digitList.filterMap fun v =>
        match scanUnit b v (rowCells r) with
        | (1, some rc) => some (⟨rc.1, rc.2, v, "Hidden Single in Row"⟩ : Move)
        | _ => none)
      = (List.finRange 9).flatMap fun r =>
        digitList.filterMap fun v =>
          match (rowCells r).filter
              (fun rc => decide (b rc.1 rc.2 = 0 ∧ v ∈ getCandidates b rc.1 rc.2)) with
          | [rc] => some (⟨rc.1, rc.2, v, "Hidden Single in Row"⟩ : Move)
          | _ => none := by
    refine List.flatMap_congr fun r _ => ?_
    refine congrArg (List.filterMap · digitList) (funext fun v => ?_)
    exact scanUnit_match_eq b v (rowCells r) fun rc => ⟨rc.1, rc.2, v, "Hidden Single in Row"⟩
  have hcols : ((List.finRange 9).flatMap fun c =>
      digitList.filterMap fun v =>
        match scanUnit b v (colCells c) with
        | (1, some rc) => some (⟨rc.1, rc.2, v, "Hidden Single in Column"⟩ : Move)
        | _ => none)
      = (List.finRange 9).flatMap fun c =>
        digitList.filterMap fun v =>
          match (colCells c).filter
              (fun rc => decide (b rc.1 rc.2 = 0 ∧ v ∈ getCandidates b rc.1 rc.2)) with
          | [rc] => some (⟨rc.1, rc.2, v, "Hidden Single in Column"⟩ : Move)
          | _ => none := by
    refine List.flatMap_congr fun c _ => ?_
    refine congrArg (List.filterMap · digitList) (funext fun v => ?_)
    exact scanUnit_match_eq b v (colCells c) fun rc => ⟨rc.1, rc.2, v, "Hidden Single in Column"⟩
  have hboxes : ((List.finRange 3).flatMap fun br =>
      (List.finRange 3).flatMap fun bc =>
        digitList.filterMap fun v =>
          match scanUnit b v (boxCells br bc) with
          | (1, some rc) => some (⟨rc.1, rc.2, v, "Hidden Single in Box"⟩ : Move)
          | _ => none)
      = (List.finRange 3).flatMap fun br =>
        (List.finRange 3).flatMap fun bc =>
          digitList.filterMap fun v =>
            match (boxCells br bc).filter
                (fun rc => decide (b rc.1 rc.2 = 0 ∧ v ∈ getCandidates b rc.1 rc.2)) with
            | [rc] => some (⟨rc.1, rc.2, v, "Hidden Single in Box"⟩ : Move)
            | _ => none := by
    refine List.flatMap_congr fun br _ => ?_
    refine List.flatMap_congr fun bc _ => ?_
    refine congrArg (List.filterMap · digitList) (funext fun v => ?_)
    exact scanUnit_match_eq b v (boxCells br bc) fun rc => ⟨rc.1, rc.2, v, "Hidden Single in Box"⟩
  rw [hrows, hcols, hboxes]

/-! ## Completion theory -/

theorem completions_full {b : Board} (hfull : ∀ r c, b r c ≠ 0) :
    completions b = {b} := by
  ext b2
  simp only [completions, Set.mem_setOf_eq, Set.mem_singleton_iff]
  constructor
  · rintro ⟨h1, _⟩
    funext i j
    exact h1 i j (hfull i j)
  · rintro rfl
    exact ⟨fun _ _ _ => rfl, fun r c hz => absurd hz (hfull r c)⟩

/-- An empty cell of `b` holds, in any completion, a digit 1–9 that is
already a legal placement on `b` itself. -/
theorem Completion.valid_at {b b2 : Board} (h : Completion b b2) {r c : Fin 9}
    (hz : b r c = 0) :
    (1 ≤ b2 r c ∧ b2 r c ≤ 9) ∧ isValidMove b r c (b2 r c) = true := by
  obtain ⟨hext, hcell⟩ := h
  obtain ⟨hrange, hvalid⟩ := hcell r c hz
  exact ⟨hrange, isValidMove_mono hext (by omega) hvalid⟩

/-- Placing a legal digit at an empty cell carves out of the completion
set exactly the completions holding that digit there. -/
theorem completions_setCell {b : Board} {r c : Fin 9} {v : Nat} (hz : b r c = 0)
    (hv1 : 1 ≤ v) (hv9 : v ≤ 9) (hval : isValidMove b r c v = true) :
    completions (setCell b r c v) = {b2 | Completion b b2 ∧ b2 r c = v} := by
  ext b2
  simp only [completions, Set.mem_setOf_eq]
  constructor
  · rintro ⟨hext, hcell⟩
    have hrc : b2 r c = v := by
      have h := hext r c (by rw [setCell_self]; omega)
      rwa [setCell_self] at h
    have hext0 : ∀ i j, b i j ≠ 0 → b2 i j = b i j := by
      intro i j hnz
      have hne : ¬(i = r ∧ j = c) := by
        rintro ⟨rfl, rfl⟩
        exact hnz hz
      have h := hext i j (by rw [setCell_of_ne hne]; exact hnz)
      rwa [setCell_of_ne hne] at h
    refine ⟨⟨hext0, ?_⟩, hrc⟩
    intro i j hz2
    by_cases hij : i = r ∧ j = c
    · obtain ⟨rfl, rfl⟩ := hij
      refine ⟨by rw [hrc]; exact ⟨hv1, hv9⟩, ?_⟩
      rw [hrc, isValidMove_eq_true_iff]
      intro x y hsu hne hxy
      by_cases hbz : b x y = 0
      · have hz3 : setCell b i j v x y = 0 := by
          rw [setCell_of_ne hne]
          exact hbz
        obtain ⟨_, hvalxy⟩ := hcell x y hz3
        rw [hxy, isValidMove_eq_true_iff] at hvalxy
        refine hvalxy i j hsu.symm ?_ hrc
        rintro ⟨rfl, rfl⟩
        exact hne ⟨rfl, rfl⟩
      · rw [isValidMove_eq_true_iff] at hval
        refine hval x y hsu hne ?_
        rw [← hext0 x y hbz]
        exact hxy
    · have hz3 : setCell b r c v i j = 0 := by
        rw [setCell_of_ne hij]
        exact hz2
      exact hcell i j hz3
  · rintro ⟨⟨hext0, hcell0⟩, hrc⟩
    constructor
    · intro i j hnz
      by_cases hij : i = r ∧ j = c
      · obtain ⟨rfl, rfl⟩ := hij
        rw [setCell_self]
        exact hrc
      · rw [setCell_of_ne hij] at hnz ⊢
        exact hext0 i j hnz
    · intro i j hz2
      have hij : ¬(i = r ∧ j = c) := by
        rintro ⟨rfl, rfl⟩
        rw [setCell_self] at hz2
        omega
      rw [setCell_of_ne hij] at hz2
      exact hcell0 i j hz2

theorem trySet_nil (b : Board) (r c : Fin 9) : TrySet b r c [] = ∅ := by
  ext b2
  simp [TrySet]

theorem trySet_cons (b : Board) (r c : Fin 9) (v : Nat) (vs : List Nat) :
    TrySet b r c (v :: vs) = {b2 | Completion b b2 ∧ b2 r c = v} ∪ TrySet b r c vs := by
  ext b2
  simp only [TrySet, Set.mem_setOf_eq, Set.mem_union, List.mem_cons]
  tauto

theorem trySet_invalid {b : Board} {r c : Fin 9} {v : Nat} (hz : b r c = 0)
    (hinv : isValidMove b r c v = false) :
    {b2 | Completion b b2 ∧ b2 r c = v} = ∅ := by
  ext b2
  simp only [Set.mem_setOf_eq, Set.mem_empty_iff_false, iff_false, not_and]
  intro hcomp hrc
  have h := (Completion.valid_at hcomp hz).2
  rw [hrc, hinv] at h
  exact Bool.false_ne_true h

theorem completions_eq_trySet {b : Board} {r c : Fin 9} (hz : b r c = 0) :
    completions b = TrySet b r c digitList := by
  ext b2
  simp only [completions, TrySet, Set.mem_setOf_eq]
  constructor
  · intro h
    refine ⟨h, ?_⟩
    have hr := (Completion.valid_at h hz).1
    simp only [digitList, List.mem_cons, List.mem_singleton]
    omega
  · exact fun h => h.1

theorem completions_finite_of_le :
    ∀ (N : Nat) (b : Board), emptyCount b ≤ N → (completions b).Finite := by
  intro N
  induction N with
  | zero =>
    intro b hN
    have hfull : ∀ r c, b r c ≠ 0 := by
      intro r c hz
      have hmem : (r, c) ∈ Finset.univ.filter fun p : Fin 9 × Fin 9 => b p.1 p.2 = 0 := by
        simp [hz]
      have hpos := Finset.card_pos.mpr ⟨(r, c), hmem⟩
      unfold emptyCount at hN
      omega
    rw [completions_full hfull]
    exact Set.finite_singleton b
  | succ N ih =>
    intro b hN
    cases hfe : findEmpty b with
    | none =>
      rw [completions_full (findEmpty_none hfe)]
      exact Set.finite_singleton b
    | some rc =>
      obtain ⟨r, c⟩ := rc
      have hz := findEmpty_some hfe
      have hsub : completions b ⊆ ⋃ v ∈ Set.Icc 1 9, completions (setCell b r c v) := by
        intro b2 hb2
        have hval := Completion.valid_at hb2 hz
        have hmem : b2 ∈ completions (setCell b r c (b2 r c)) := by
          rw [completions_setCell hz hval.1.1 hval.1.2 hval.2]
          exact ⟨hb2, rfl⟩
        simp only [Set.mem_iUnion, Set.mem_Icc]
        exact ⟨b2 r c, hval.1, hmem⟩
      refine Set.Finite.subset (Set.Finite.biUnion (Set.finite_Icc 1 9) ?_) hsub
      intro v hv
      simp only [Set.mem_Icc] at hv
      have hcnt := emptyCount_setCell hz (v := v) (by omega)
      exact ih (setCell b r c v) (by omega)

theorem completions_finite (b : Board) : (completions b).Finite :=
  completions_finite_of_le (emptyCount b) b le_rfl

/-! ## The search restores the board -/

/-- Go `countSolutions` always hands its board back exactly as received:
every tentative assignment is reset, also on the early-abort path. -/
theorem countGo_board : ∀ (n : Nat) (b : Board) (k : Nat), (countGo n b k).2.1 = b := by
  intro n
  induction n with
  | zero =>
    intro b k
    rw [countGo]
  | succ n ih =>
    intro b k
    cases hfe : findEmpty b with
    | none => rw [countGo, hfe]
    | some rc =>
      obtain ⟨r, c⟩ := rc
      have hz := findEmpty_some hfe
      have htry : ∀ (vs : List Nat) (k2 : Nat), (countTryF (countGo n) r c b k2 vs).2.1 = b := by
        intro vs
        induction vs with
        | nil =>
          intro k2
          rw [countTryF]
        | cons v t iht =>
          intro k2
          rw [countTryF]
          by_cases hval : isValidMove b r c v = true
          · rw [if_pos hval]
            rcases hrec : countGo n (setCell b r c v) k2 with ⟨fin, b1, k1⟩
            have hb1 : b1 = setCell b r c v := by
              have h := ih (setCell b r c v) k2
              rw [hrec] at h
              exact h
            have hreset : setCell b1 r c 0 = b := by
              rw [hb1, setCell_setCell, setCell_zero_eq hz]
            cases fin
            · simp only [Bool.false_eq_true, if_false]
              rw [hreset]
              exact iht k1
            · simp only [if_true]
              exact hreset
          · rw [if_neg hval]
            exact iht k2
      rw [countGo, hfe]
      exact htry digitList k

/-- A failed `solve` hands its board back exactly as received. -/
theorem solveGo_restore (shuf : Nat → Board → List Nat) :
    ∀ (n : Nat) (b : Board),
      (solveGo shuf n b).1 = false → (solveGo shuf n b).2 = b := by
  intro n
  induction n with
  | zero =>
    intro b _
    rw [solveGo]
  | succ n ih =>
    intro b
    cases hfe : findEmpty b with
    | none =>
      rw [solveGo, hfe]
      intro hfalse
      exact absurd hfalse (by simp)
    | some rc =>
      obtain ⟨r, c⟩ := rc
      have hz := findEmpty_some hfe
      have htry : ∀ (vs : List Nat),
          (solveTryF (solveGo shuf n) r c b vs).1 = false → (solveTryF (solveGo shuf n) r c b vs).2 = b := by
        intro vs
        induction vs with
        | nil =>
          intro _
          rw [solveTryF]
        | cons v t iht =>
          rw [solveTryF]
          by_cases hval : isValidMove b r c v = true
          · rw [if_pos hval]
            rcases hrec : solveGo shuf n (setCell b r c v) with ⟨ok, b1⟩
            cases ok
            · have hb1 : b1 = setCell b r c v := by
                have h := ih (setCell b r c v) (by rw [hrec])
                rw [hrec] at h
                exact h
              have hreset : setCell b1 r c 0 = b := by
                rw [hb1, setCell_setCell, setCell_zero_eq hz]
              simp only [Bool.false_eq_true, if_false]
              rw [hreset]
              exact iht
            · simp only [if_true]
              intro hfalse
              exact absurd hfalse (by simp)
          · rw [if_neg hval]
            exact iht
      rw [solveGo, hfe]
      exact htry (shuf (n + 1) b)

/-! ## The counter counts completions, capped at two -/

theorem countGo_spec :
    ∀ (n : Nat) (b : Board) (k : Nat), emptyCount b < n → k ≤ 1 →
      ((countGo n b k).1 = false →
        (countGo n b k).2.2 = k + (completions b).ncard ∧ (countGo n b k).2.2 ≤ 1) ∧
      ((countGo n b k).1 = true →
        (countGo n b k).2.2 = 2 ∧ 2 ≤ k + (completions b).ncard) := by
  intro n
  induction n with
  | zero => intro b k h; exact absurd h (Nat.not_lt_zero _)
  | succ n ih =>
    intro b k hfuel hk
    cases hfe : findEmpty b with
    | none =>
      have hfull := findEmpty_none hfe
      have hcomp : (completions b).ncard = 1 := by
        rw [completions_full hfull]
        exact Set.ncard_singleton b
      have hgo : countGo (n + 1) b k = (decide (k + 1 > 1), b, k + 1) := by
        rw [countGo, hfe]
      rw [hgo, hcomp]
      constructor
      · intro hf
        simp only [decide_eq_false_iff_not, gt_iff_lt, not_lt] at hf
        refine ⟨rfl, ?_⟩
        show k + 1 ≤ 1
        omega
      · intro ht
        simp only [decide_eq_true_eq, gt_iff_lt] at ht
        constructor
        · show k + 1 = 2
          omega
        · show 2 ≤ k + 1
          omega
    | some rc =>
      obtain ⟨r, c⟩ := rc
      have hz := findEmpty_some hfe
      have htry : ∀ (vs : List Nat), vs.Nodup → (∀ v ∈ vs, 1 ≤ v ∧ v ≤ 9) →
          ∀ (k2 : Nat), k2 ≤ 1 →
          ((countTryF (countGo n) r c b k2 vs).1 = false →
            (countTryF (countGo n) r c b k2 vs).2.2 = k2 + (TrySet b r c vs).ncard ∧
            (countTryF (countGo n) r c b k2 vs).2.2 ≤ 1) ∧
          ((countTryF (countGo n) r c b k2 vs).1 = true →
            (countTryF (countGo n) r c b k2 vs).2.2 = 2 ∧
            2 ≤ k2 + (TrySet b r c vs).ncard) := by
        intro vs
        induction vs with
        | nil =>
          intro _ _ k2 hk2
          have hnil : countTryF (countGo n) r c b k2 [] = (false, b, k2) := by
            rw [countTryF]
          rw [trySet_nil, hnil]
          constructor
          · intro _
            constructor
            · show k2 = k2 + (∅ : Set Board).ncard
              simp [Set.ncard_empty]
            · show k2 ≤ 1
              exact hk2
          · intro ht
            exact absurd ht (by simp)
        | cons v t iht =>
          intro hnd hvals k2 hk2
          have hndt : t.Nodup := (List.nodup_cons.mp hnd).2
          have hvnotint : v ∉ t := (List.nodup_cons.mp hnd).1
          have hvr : 1 ≤ v ∧ v ≤ 9 := hvals v (List.mem_cons_self _ _)
          have hTfin : (TrySet b r c (v :: t)).Finite :=
            Set.Finite.subset (completions_finite b) fun b2 h => h.1
          have htfin : (TrySet b r c t).Finite :=
            Set.Finite.subset (completions_finite b) fun b2 h => h.1
          rw [countTryF]
          by_cases hval : isValidMove b r c v = true
          · rw [if_pos hval]
            rcases hrec : countGo n (setCell b r c v) k2 with ⟨fin, b1, k1⟩
            have hfuel2 : emptyCount (setCell b r c v) < n := by
              have h := emptyCount_setCell hz (v := v) (by omega)
              omega
            have hspec := ih (setCell b r c v) k2 hfuel2 hk2
            rw [hrec] at hspec
            have hb1 : b1 = setCell b r c v := by
              have h := countGo_board n (setCell b r c v) k2
              rw [hrec] at h
              exact h
            have hreset : setCell b1 r c 0 = b := by
              rw [hb1, setCell_setCell, setCell_zero_eq hz]
            have hCv : completions (setCell b r c v)
                = {b2 | Completion b b2 ∧ b2 r c = v} :=
              completions_setCell hz hvr.1 hvr.2 hval
            have hvfin : ({b2 | Completion b b2 ∧ b2 r c = v}).Finite := by
              rw [← hCv]
              exact completions_finite _
            have hsplit : (TrySet b r c (v :: t)).ncard
                = ({b2 | Completion b b2 ∧ b2 r c = v}).ncard + (TrySet b r c t).ncard := by
              rw [trySet_cons]
              apply Set.ncard_union_eq
              · rw [Set.disjoint_left]
                rintro b2 ⟨_, hv2⟩ ⟨_, hmem⟩
                exact hvnotint (hv2 ▸ hmem)
              · exact hvfin
              · exact htfin
            cases fin
            · simp only [Bool.false_eq_true, if_false]
              rw [hreset]
              obtain ⟨hf1, _⟩ := hspec
              obtain ⟨hk1eq0, hk1le0⟩ := hf1 rfl
              have hk1eq : k1 = k2 + (completions (setCell b r c v)).ncard := hk1eq0
              have hk1le : k1 ≤ 1 := hk1le0
              have hrest := iht hndt (fun w hw => hvals w (List.mem_cons_of_mem _ hw)) k1 hk1le
              constructor
              · intro hf
                obtain ⟨he, hle⟩ := hrest.1 hf
                refine ⟨?_, hle⟩
                rw [he, hk1eq, hsplit, ← hCv]
                ring
              · intro ht2
                obtain ⟨he, hge⟩ := hrest.2 ht2
                refine ⟨he, ?_⟩
                rw [hsplit, ← hCv]
                rw [hk1eq] at hge
                rw [← Nat.add_assoc]
                exact hge
            · simp only [if_true]
              obtain ⟨_, ht1⟩ := hspec
              obtain ⟨hk1eq0, hge0⟩ := ht1 rfl
              have hk1eq : k1 = 2 := hk1eq0
              have hge : 2 ≤ k2 + (completions (setCell b r c v)).ncard := hge0
              constructor
              · intro hf
                exact absurd hf (by simp)
              · intro _
                refine ⟨hk1eq, ?_⟩
                have hmono : (completions (setCell b r c v)).ncard
                    ≤ (TrySet b r c (v :: t)).ncard := by
                  apply Set.ncard_le_ncard
                  · rw [hCv]
                    intro b2 hb2
                    exact ⟨hb2.1, by rw [hb2.2]; exact List.mem_cons_self _ _⟩
                  · exact hTfin
                exact le_trans hge (Nat.add_le_add_left hmono k2)
          · rw [if_neg hval]
            have hvfalse : isValidMove b r c v = false := by
              simpa using hval
            have hTeq : TrySet b r c (v :: t) = TrySet b r c t := by
              rw [trySet_cons, trySet_invalid hz hvfalse, Set.empty_union]
            rw [hTeq]
            exact iht hndt (fun w hw => hvals w (List.mem_cons_of_mem _ hw)) k2 hk2
      have hgo : countGo (n + 1) b k = countTryF (countGo n) r c b k digitList := by
        rw [countGo, hfe]
      rw [hgo, completions_eq_trySet hz]
      exact htry digitList (by decide) (by decide) k hk

/-! ## Soundness and completeness of the backtracking solver -/

/-- Whatever digit order the oracle serves (digits 1–9 only, as
`rand.Shuffle` of `[1..9]` guarantees), a successful search returns a
full legal completion of its input board. -/
theorem solveGo_sound (shuf : Nat → Board → List Nat)
    (hshuf : ∀ (n : Nat) (b : Board), ∀ v ∈ shuf n b, 1 ≤ v ∧ v ≤ 9) :
    ∀ (n : Nat) (b b1 : Board),
      solveGo shuf n b = (true, b1) → Completion b b1 := by
  intro n
  induction n with
  | zero =>
    intro b b1 h
    rw [solveGo] at h
    exact absurd h (by simp)
  | succ n ih =>
    intro b b1 h
    cases hfe : findEmpty b with
    | none =>
      rw [solveGo, hfe] at h
      have hb : b = b1 := by
        have := h
        simp only [Prod.mk.injEq, true_and] at this
        exact this
      subst hb
      exact ⟨fun _ _ _ => rfl, fun r c hz => absurd hz (findEmpty_none hfe r c)⟩
    | some rc =>
      obtain ⟨r, c⟩ := rc
      have hz := findEmpty_some hfe
      rw [solveGo, hfe] at h
      have htry : ∀ (vs : List Nat), (∀ v ∈ vs, 1 ≤ v ∧ v ≤ 9) →
          solveTryF (solveGo shuf n) r c b vs = (true, b1) → Completion b b1 := by
        intro vs
        induction vs with
        | nil =>
          intro _ hcontra
          rw [solveTryF] at hcontra
          exact absurd hcontra (by simp)
        | cons v t iht =>
          intro hvals htr
          rw [solveTryF] at htr
          by_cases hval : isValidMove b r c v = true
          · rw [if_pos hval] at htr
            rcases hrec : solveGo shuf n (setCell b r c v) with ⟨ok, b2⟩
            rw [hrec] at htr
            cases ok
            · have hb2 : b2 = setCell b r c v := by
                have hres := solveGo_restore shuf n (setCell b r c v) (by rw [hrec])
                rw [hrec] at hres
                exact hres
              have hreset : setCell b2 r c 0 = b := by
                rw [hb2, setCell_setCell, setCell_zero_eq hz]
              have htr2 : solveTryF (solveGo shuf n) r c (setCell b2 r c 0) t = (true, b1) := htr
              rw [hreset] at htr2
              exact iht (fun w hw => hvals w (List.mem_cons_of_mem _ hw)) htr2
            · have htr2 : ((true, b2) : Bool × Board) = (true, b1) := htr
              have hb21 : b2 = b1 := by
                simpa using htr2
              subst hb21
              have hcomp : b2 ∈ completions (setCell b r c v) := ih (setCell b r c v) b2 hrec
              have hvr := hvals v (List.mem_cons_self _ _)
              rw [completions_setCell hz hvr.1 hvr.2 hval] at hcomp
              exact hcomp.1
          · rw [if_neg hval] at htr
            exact iht (fun w hw => hvals w (List.mem_cons_of_mem _ hw)) htr
      exact htry (shuf (n + 1) b) (hshuf (n + 1) b) h

/-- The deterministic `solve` tries every digit 1–9 at every cell, so a
failed search means the board has no completion at all. -/
theorem solve_complete :
    ∀ (n : Nat) (b : Board), emptyCount b < n →
      (solveGo (fun _ _ => digitList) n b).1 = false → completions b = ∅ := by
  intro n
  induction n with
  | zero => intro b h; exact absurd h (Nat.not_lt_zero _)
  | succ n ih =>
    intro b hfuel
    cases hfe : findEmpty b with
    | none =>
      rw [solveGo, hfe]
      intro hfalse
      exact absurd hfalse (by simp)
    | some rc =>
      obtain ⟨r, c⟩ := rc
      have hz := findEmpty_some hfe
      intro hfalse
      rw [solveGo, hfe] at hfalse
      have htry : ∀ (vs : List Nat), (∀ v ∈ vs, 1 ≤ v ∧ v ≤ 9) →
          (solveTryF (solveGo (fun _ _ => digitList) n) r c b vs).1 = false →
          TrySet b r c vs = ∅ := by
        intro vs
        induction vs with
        | nil => intro _ _; exact trySet_nil b r c
        | cons v t iht =>
          intro hvals hf
          rw [solveTryF] at hf
          by_cases hval : isValidMove b r c v = true
          · rw [if_pos hval] at hf
            rcases hrec : solveGo (fun _ _ => digitList) n (setCell b r c v) with ⟨ok, b2⟩
            rw [hrec] at hf
            cases ok
            · have hb2 : b2 = setCell b r c v := by
                have hres := solveGo_restore _ n (setCell b r c v) (by rw [hrec])
                rw [hrec] at hres
                exact hres
              have hreset : setCell b2 r c 0 = b := by
                rw [hb2, setCell_setCell, setCell_zero_eq hz]
              have hf2 : (solveTryF (solveGo (fun _ _ => digitList) n) r c
                  (setCell b2 r c 0) t).1 = false := hf
              rw [hreset] at hf2
              have ht := iht (fun w hw => hvals w (List.mem_cons_of_mem _ hw)) hf2
              have hvr := hvals v (List.mem_cons_self _ _)
              have hfuel2 : emptyCount (setCell b r c v) < n := by
                have h := emptyCount_setCell hz (v := v) (by omega)
                omega
              have hrecfail : (solveGo (fun _ _ => digitList) n
                  (setCell b r c v)).1 = false := by
                rw [hrec]
              have hCv := ih (setCell b r c v) hfuel2 hrecfail
              rw [completions_setCell hz hvr.1 hvr.2 hval] at hCv
              rw [trySet_cons, hCv, Set.empty_union]
              exact ht
            · have hf2 : ((true, b2) : Bool × Board).1 = false := hf
              exact absurd hf2 (by simp)
          · rw [if_neg hval] at hf
            have hvfalse : isValidMove b r c v = false := by
              simpa using hval
            rw [trySet_cons, trySet_invalid hz hvfalse, Set.empty_union]
            exact iht (fun w hw => hvals w (List.mem_cons_of_mem _ hw)) hf
      rw [completions_eq_trySet hz]
      exact htry digitList (by decide) hfalse

/-! ## Wrapper-level helper facts -/

theorem digits_bound : ∀ v ∈ digitList, 1 ≤ v ∧ v ≤ 9 := by decide

theorem emptyCount_lt_maxFuel (b : Board) : emptyCount b < maxFuel :=
  lt_of_le_of_lt (emptyCount_le b) (by norm_num [maxFuel])

/-- The observable contract of `countSolutions` when started, as all
callers do, with counter 0. -/
theorem countSolutions_min (b : Board) :
    (countSolutions b).2.2 = min 2 (completions b).ncard ∧
    ((countSolutions b).1 = true ↔ 2 ≤ (completions b).ncard) := by
  have hspec := countGo_spec maxFuel b 0 (emptyCount_lt_maxFuel b) (by omega)
  cases hfin : (countGo maxFuel b 0).1 with
  | false =>
    obtain ⟨he, hle⟩ := hspec.1 hfin
    rw [Nat.zero_add] at he
    constructor
    · show (countGo maxFuel b 0).2.2 = _
      rw [he]
      omega
    · constructor
      · intro h
        rw [show (countSolutions b).1 = (countGo maxFuel b 0).1 from rfl, hfin] at h
        exact absurd h (by simp)
      · intro h
        exfalso
        omega
  | true =>
    obtain ⟨he, hge⟩ := hspec.2 hfin
    rw [Nat.zero_add] at hge
    constructor
    · show (countGo maxFuel b 0).2.2 = _
      rw [he]
      omega
    · constructor
      · intro _
        exact hge
      · intro _
        show (countGo maxFuel b 0).1 = true
        exact hfin

/-! ## C2: the solution counter -/

/-- C2.  `countSolutions` leaves its counter equal to the minimum of 2
and the number of distinct full legal completions of the board; the
`true` (abort) flag propagates up exactly when the counter passed 1,
i.e. when at least two completions exist. -/
theorem spec_countSolutions (b : Board) :
    (countSolutions b).2.2 = min 2 (completions b).ncard ∧
    ((countSolutions b).1 = true ↔ 2 ≤ (completions b).ncard) :=
  countSolutions_min b

/-! ## C5: failed searches restore the board -/

/-- C5.  A failed backtracking search leaves the board exactly as it
was entered: each tentatively assigned cell is reset before the next
candidate and before failure returns; `countSolutions` restores its
board on every path; and `SolvePuzzle` hands back the original board
unchanged when it reports no solution. -/
theorem spec_backtrack_restores (b : Board) (hs : (solve maxFuel b).1 = false) :
    (∀ (shuf : Nat → Board → List Nat) (n : Nat),
      (solveGo shuf n b).1 = false → (solveGo shuf n b).2 = b) ∧
    (∀ (n k : Nat), (countGo n b k).2.1 = b) ∧
    solvePuzzle b = (b, false) := by
  refine ⟨fun shuf n h => solveGo_restore shuf n b h, fun n k => countGo_board n b k, ?_⟩
  rw [solvePuzzle]
  rcases hsv : solve maxFuel b with ⟨ok, b1⟩
  rw [hsv] at hs
  cases ok
  · rfl
  · exact absurd hs (by simp)

/-- Witness for C5 at a concrete unsolvable board. -/
theorem spec_backtrack_restores_witness :
    (solve maxFuel deadB).1 = false ∧
    ((∀ (shuf : Nat → Board → List Nat) (n : Nat),
        (solveGo shuf n deadB).1 = false → (solveGo shuf n deadB).2 = deadB) ∧
      (∀ (n k : Nat), (countGo n deadB k).2.1 = deadB) ∧
      solvePuzzle deadB = (deadB, false)) :=
  ⟨by decide, spec_backtrack_restores deadB (by decide)⟩

/-! ## C1 and C9: the puzzle generator -/

theorem filledCount_add_emptyCount (b : Board) : filledCount b + emptyCount b = 81 := by
  classical
  unfold filledCount emptyCount
  have h := Finset.filter_card_add_filter_neg_card_eq_card
    (s := (Finset.univ : Finset (Fin 9 × Fin 9)))
    (p := fun p : Fin 9 × Fin 9 => b p.1 p.2 ≠ 0)
  simp only [Finset.card_univ, Fintype.card_prod, Fintype.card_fin, not_not] at h
  have hc : (Finset.univ.filter fun p : Fin 9 × Fin 9 => ¬ b p.1 p.2 ≠ 0).card
      = (Finset.univ.filter fun p : Fin 9 × Fin 9 => b p.1 p.2 = 0).card := by
    apply congrArg
    apply Finset.filter_congr
    intro p _
    simp
  omega

/-- The removal loop only ever clears cells, one per remaining vacant
tile, so it adds at most `vacant` empty cells. -/
theorem removeLoop_emptyCount :
    ∀ (positions : List (Fin 81)) (puzzle : Board) (vacant : Nat),
      emptyCount (removeLoop positions puzzle vacant) ≤ emptyCount puzzle + vacant := by
  intro positions
  induction positions with
  | nil =>
    intro puzzle vacant
    rw [removeLoop]
    omega
  | cons pos rest ih =>
    intro puzzle vacant
    rw [removeLoop]
    by_cases hvz : vacant = 0
    · rw [if_pos hvz]
      omega
    · rw [if_neg hvz]
      by_cases hcnt : (countSolutions (setCell puzzle (posRow pos) (posCol pos) 0)).2.2 ≠ 1
      · rw [if_pos hcnt]
        exact ih puzzle vacant
      · rw [if_neg hcnt]
        have h1 := ih (setCell puzzle (posRow pos) (posCol pos) 0) (vacant - 1)
        have h2 := emptyCount_setCell_zero_le puzzle (posRow pos) (posCol pos)
        omega

/-- The removal loop preserves the generator invariant: the puzzle
agrees with the solved grid on its filled cells, and it has exactly one
full legal completion. -/
theorem removeLoop_inv (solved : Board) :
    ∀ (positions : List (Fin 81)) (puzzle : Board) (vacant : Nat),
      (∀ r c, puzzle r c ≠ 0 → puzzle r c = solved r c) →
      (completions puzzle).ncard = 1 →
      (∀ r c, removeLoop positions puzzle vacant r c ≠ 0 →
          removeLoop positions puzzle vacant r c = solved r c) ∧
      (completions (removeLoop positions puzzle vacant)).ncard = 1 := by
  intro positions
  induction positions with
  | nil =>
    intro puzzle vacant hext hc
    rw [removeLoop]
    exact ⟨hext, hc⟩
  | cons pos rest ih =>
    intro puzzle vacant hext hc
    rw [removeLoop]
    by_cases hvz : vacant = 0
    · rw [if_pos hvz]
      exact ⟨hext, hc⟩
    · rw [if_neg hvz]
      by_cases hcnt : (countSolutions (setCell puzzle (posRow pos) (posCol pos) 0)).2.2 ≠ 1
      · rw [if_pos hcnt]
        exact ih puzzle vacant hext hc
      · rw [if_neg hcnt]
        push_neg at hcnt
        have hext2 : ∀ r c, setCell puzzle (posRow pos) (posCol pos) 0 r c ≠ 0 →
            setCell puzzle (posRow pos) (posCol pos) 0 r c = solved r c := by
          intro r c hnz
          by_cases hij : r = posRow pos ∧ c = posCol pos
          · obtain ⟨rfl, rfl⟩ := hij
            rw [setCell_self] at hnz
            exact absurd rfl hnz
          · rw [setCell_of_ne hij] at hnz ⊢
            exact hext r c hnz
        have hc2 : (completions (setCell puzzle (posRow pos) (posCol pos) 0)).ncard = 1 := by
          have hmin := (countSolutions_min (setCell puzzle (posRow pos) (posCol pos) 0)).1
          rw [hcnt] at hmin
          omega
        exact ih _ (vacant - 1) hext2 hc2

/-- The digit oracle `shufW` only produces digits 1–9. -/
theorem shufW_digits : ∀ (n : Nat) (b : Board), ∀ v ∈ shufW n b, 1 ≤ v ∧ v ≤ 9 := by
  intro n b v hv
  rw [shufW] at hv
  cases hfe : findEmpty b with
  | none =>
    rw [hfe] at hv
    simp at hv
  | some rc =>
    rw [hfe] at hv
    simp only [List.mem_singleton] at hv
    subst hv
    exact (by decide :
      ∀ rc : Fin 9 × Fin 9, 1 ≤ solvedB rc.1 rc.2 ∧ solvedB rc.1 rc.2 ≤ 9) rc

set_option maxRecDepth 100000 in
/-- Concrete run of the generator: the oracle walks straight to
`solvedB`, and with no positions to visit the puzzle equals it. -/
theorem generate_easy_eval :
    generatePuzzle shufW Difficulty.easy [] = some (solvedB, solvedB) := by
  have h1 : solveGo shufW maxFuel emptyBoard = (true, solvedB) := by decide
  unfold generatePuzzle
  rw [h1]
  rfl

/-- C1.  Every (puzzle, solution) pair returned successfully by
`GeneratePuzzle` — at any difficulty, for any digit shuffles (always
permutations of 1–9) and any cell-removal order — satisfies:
`solve` on the puzzle yields exactly the returned solution, and
`countSolutions` on the puzzle reports exactly 1. -/
theorem spec_generatePuzzle_unique (df : Difficulty) (shuf : Nat → Board → List Nat)
    (hshuf : ∀ (n : Nat) (b : Board), ∀ v ∈ shuf n b, 1 ≤ v ∧ v ≤ 9)
    (positions : List (Fin 81)) (p sol : Board)
    (hgen : generatePuzzle shuf df positions = some (p, sol)) :
    (countSolutions p).2.2 = 1 ∧ solvePuzzle p = (sol, true) := by
  unfold generatePuzzle at hgen
  rcases hsv : solveGo shuf maxFuel emptyBoard with ⟨ok, solved⟩
  rw [hsv] at hgen
  cases ok
  · exact absurd hgen (by simp)
  · have hps : removeLoop positions solved (vacantTiles df) = p ∧ solved = sol := by
      simpa using hgen
    obtain ⟨hp, hsol⟩ := hps
    subst hsol
    have hcomp : Completion emptyBoard solved :=
      solveGo_sound shuf hshuf maxFuel emptyBoard solved hsv
    have hsl : ∀ r c, (1 ≤ solved r c ∧ solved r c ≤ 9) ∧
        isValidMove solved r c (solved r c) = true := fun r c => hcomp.2 r c rfl
    have hfull : ∀ r c, solved r c ≠ 0 := by
      intro r c
      have h := (hsl r c).1.1
      omega
    have hinit : (completions solved).ncard = 1 := by
      rw [completions_full hfull]
      exact Set.ncard_singleton solved
    obtain ⟨hextp, hc1⟩ :=
      removeLoop_inv solved positions solved (vacantTiles df) (fun _ _ _ => rfl) hinit
    rw [hp] at hextp hc1
    have hcompP : Completion p solved :=
      ⟨fun r c h => (hextp r c h).symm, fun r c _ => hsl r c⟩
    have hset : completions p = {solved} := by
      obtain ⟨a, ha⟩ := Set.ncard_eq_one.mp hc1
      have hmem : solved ∈ completions p := hcompP
      rw [ha] at hmem
      rw [ha, Set.mem_singleton_iff.mp hmem]
    have hsolve : solve maxFuel p = (true, solved) := by
      rcases hq : solve maxFuel p with ⟨ok2, b2⟩
      cases ok2
      · exfalso
        have hfail : (solveGo (fun _ _ => digitList) maxFuel p).1 = false := by
          rw [show solveGo (fun _ _ => digitList) maxFuel p = solve maxFuel p from rfl, hq]
        have hemp := solve_complete maxFuel p (emptyCount_lt_maxFuel p) hfail
        rw [hset] at hemp
        exact Set.singleton_ne_empty solved hemp
      · have hq2 : solveGo (fun _ _ => digitList) maxFuel p = (true, b2) := hq
        have hb2 : b2 ∈ completions p :=
          solveGo_sound (fun _ _ => digitList) (fun _ _ => digits_bound) maxFuel p b2 hq2
        rw [hset, Set.mem_singleton_iff] at hb2
        rw [hb2]
    constructor
    · have hmin := (countSolutions_min p).1
      rw [hc1] at hmin
      rw [hmin]
      decide
    · rw [solvePuzzle, hsolve]

/-- Witness for C1: a concrete successful generator run. -/
theorem spec_generatePuzzle_unique_witness :
    generatePuzzle shufW Difficulty.easy [] = some (solvedB, solvedB) ∧
    (countSolutions solvedB).2.2 = 1 ∧ solvePuzzle solvedB = (solvedB, true) :=
  ⟨generate_easy_eval,
    spec_generatePuzzle_unique Difficulty.easy shufW shufW_digits [] solvedB solvedB
      generate_easy_eval⟩

/-- C9.  Every puzzle returned successfully by `GeneratePuzzle` at Easy
difficulty has at least 46 = 81 − 35 filled cells. -/
theorem spec_generateEasy_filled (shuf : Nat → Board → List Nat)
    (hshuf : ∀ (n : Nat) (b : Board), ∀ v ∈ shuf n b, 1 ≤ v ∧ v ≤ 9)
    (positions : List (Fin 81)) (p sol : Board)
    (hgen : generatePuzzle shuf Difficulty.easy positions = some (p, sol)) :
    46 ≤ filledCount p := by
  unfold generatePuzzle at hgen
  rcases hsv : solveGo shuf maxFuel emptyBoard with ⟨ok, solved⟩
  rw [hsv] at hgen
  cases ok
  · exact absurd hgen (by simp)
  · have hps : removeLoop positions solved (vacantTiles Difficulty.easy) = p ∧ solved = sol := by
      simpa using hgen
    obtain ⟨hp, _⟩ := hps
    have hcomp : Completion emptyBoard solved :=
      solveGo_sound shuf hshuf maxFuel emptyBoard solved hsv
    have hfull : ∀ r c, solved r c ≠ 0 := by
      intro r c
      have h := (hcomp.2 r c rfl).1.1
      omega
    have hempty0 : emptyCount solved = 0 := by
      unfold emptyCount
      rw [Finset.card_eq_zero, Finset.filter_eq_empty_iff]
      intro p2 _
      exact hfull p2.1 p2.2
    have hbound := removeLoop_emptyCount positions solved (vacantTiles Difficulty.easy)
    rw [hp] at hbound
    have hvac : vacantTiles Difficulty.easy = 35 := rfl
    have hsum := filledCount_add_emptyCount p
    omega

/-- Witness for C9 at the same concrete generator run. -/
theorem spec_generateEasy_filled_witness :
    generatePuzzle shufW Difficulty.easy [] = some (solvedB, solvedB) ∧
    46 ≤ filledCount solvedB :=
  ⟨generate_easy_eval,
    spec_generateEasy_filled shufW shufW_digits [] solvedB solvedB generate_easy_eval⟩

/-! ## C10: the hint protocol keeps no state -/

set_option maxRecDepth 100000 in
/-- C10 counterexample.  A fill-phase call (`GetHint`, the `fill_cell`
mode) on a fresh board with no preceding `findSolvableCell` highlight —
no highlight state exists anywhere in the code — succeeds with a move
instead of failing with `InvalidState`. -/
theorem getHint_needs_no_highlight :
    holeB 0 0 = 0 ∧
    (getHint holeB 0 0).toOption = some (⟨0, 0, 5, "Naked Single"⟩ : Move) :=
  ⟨by decide, by decide⟩

/-- C10 (amended).  The service keeps no hint-protocol state: the fill
phase requires no preceding highlight.  `GetHint` fails only when the
target cell is already filled (`cell is already filled`) or the board
has no completion; on any empty cell of a solvable board it returns a
move, whatever calls preceded it. -/
theorem spec_getHint_stateless (b : Board) (r c : Fin 9) (hempty : b r c = 0)
    (hsolv : (solve maxFuel b).1 = true) :
    (∃ m, getHint b r c = .ok m) ∧
    (∀ (b2 : Board) (r2 c2 : Fin 9), b2 r2 c2 ≠ 0 →
      getHint b2 r2 c2 = .error ("cell is already filled")) := by
  constructor
  · rw [getHint, if_neg (by simp [hempty])]
    rcases hq : solve maxFuel b with ⟨ok, sb⟩
    rw [hq] at hsolv
    cases ok
    · exact absurd hsolv (by simp)
    · have hsp : solvePuzzle b = (sb, true) := by
        rw [solvePuzzle, hq]
      rw [hsp]
      show ∃ m, (match solveStep b with
        | Except.ok step =>
          if step.row = r ∧ step.col = c then Except.ok step
          else Except.ok (⟨r, c, sb r c, "Hint"⟩ : Move)
        | Except.error _ => Except.ok (⟨r, c, sb r c, "Hint"⟩ : Move)) = Except.ok m
      cases hstep : solveStep b with
      | ok step =>
        show ∃ m, (if step.row = r ∧ step.col = c then Except.ok step
          else Except.ok (⟨r, c, sb r c, "Hint"⟩ : Move)) = Except.ok m
        by_cases hmatch : step.row = r ∧ step.col = c
        · rw [if_pos hmatch]
          exact ⟨step, rfl⟩
        · rw [if_neg hmatch]
          exact ⟨_, rfl⟩
      | error e => exact ⟨_, rfl⟩
  · intro b2 r2 c2 hnz
    rw [getHint, if_pos hnz]

set_option maxRecDepth 100000 in
/-- Witness for the amended C10 theorem at a concrete board. -/
theorem spec_getHint_stateless_witness :
    holeB 0 0 = 0 ∧ (solve maxFuel holeB).1 = true ∧
    ((∃ m, getHint holeB 0 0 = .ok m) ∧
      (∀ (b2 : Board) (r2 c2 : Fin 9), b2 r2 c2 ≠ 0 →
        getHint b2 r2 c2 = .error ("cell is already filled"))) :=
  ⟨by decide, by decide, spec_getHint_stateless holeB 0 0 (by decide) (by decide)⟩

end Sudoku
